import Mathlib

set_option maxRecDepth 16384

/-!
Verification development for the RANLUX++ generator engine (header `inc/ranlux.h`
and the test drivers `tests/ranlux_test.cxx`, `tests/ranluxpp_test.cxx`).

The scalar subtract-with-borrow (SWB) state is the C state `uint32_t _x[24]`
plus the borrow bit `uint32_t _c`; only the low 24 bits of each lane are used.
The equivalent linear congruential generator works modulo
m = 2^576 - 2^240 + 1 with multiplier a = m - (m - 1) / 2^24.

Bodies of `ranluxI_scalar::nextstate`, `ranluxI_scalar::init`, the `ranluxpp`
class and the conversion helpers `getlcgstate` / `getranluxseq` are declared
and exercised by the sources but their definitions are not part of the
available files, so those definitions below are modelled from the
specification, as indicated in their doc comments.  Everything that is inline
in `inc/ranlux.h` (the draw operator, the 32-bit exporters, the state layout)
is translated directly from that file.
-/

namespace RanluxVerify

/-- Digit base of the subtract-with-borrow generator: 2 to the 24. -/
def bb : ℕ := 2 ^ 24

/-- Modulus of the equivalent linear congruential generator,
m = 2 to the 576 minus 2 to the 240 plus 1. -/
def m : ℕ := 2 ^ 576 - 2 ^ 240 + 1

/-- Multiplier of the one-sub-step linear congruential generator,
a = m - (m - 1) / 2^24.  Multiplication by `a` modulo `m` is division
by the digit base `bb` modulo `m`. -/
def a : ℕ := m - (m - 1) / bb

/-- Unpacked subtract-with-borrow state: the 24 digit lanes
(C member `uint32_t _x[24]`, oldest lane first) and the borrow bit
(C member `uint32_t _c`). -/
structure SWBState where
  digits : List ℕ
  carry : ℕ
  deriving DecidableEq

/-- Well-formedness: 24 lanes, every lane below 2^24, borrow bit 0 or 1. -/
def wfS (s : SWBState) : Prop :=
  s.digits.length = 24 ∧ (∀ v ∈ s.digits, v < bb) ∧ s.carry ≤ 1

instance (s : SWBState) : Decidable (wfS s) := by
  unfold wfS; infer_instance

/-- Modelled from the spec: the digit produced by one sub-step of the
borrow-propagating recurrence of `ranluxI_scalar::nextstate` (body not in the
available sources).  With the state holding the last 24 sequence values,
oldest first, the recurrence of the reference RANLUX algorithm forms
x(n) = x(n-10) - x(n-24) - carry, adding the base 2^24 on borrow; this is the
reading of the recurrence that realizes the documented equivalence with the
linear congruential generator modulo m = 2^576 - 2^240 + 1. -/
def newDigit (s : SWBState) : ℕ :=
  if s.digits.getD 0 0 + s.carry ≤ s.digits.getD 14 0 then
    s.digits.getD 14 0 - (s.digits.getD 0 0 + s.carry)
  else
    bb + s.digits.getD 14 0 - (s.digits.getD 0 0 + s.carry)

/-- Modelled from the spec: the borrow produced by one sub-step. -/
def newCarry (s : SWBState) : ℕ :=
  if s.digits.getD 0 0 + s.carry ≤ s.digits.getD 14 0 then 0 else 1

/-- Modelled from the spec: one sub-step of the subtract-with-borrow
recurrence, dropping the oldest lane and appending the produced digit. -/
def swbStep (s : SWBState) : SWBState :=
  ⟨s.digits.tail ++ [newDigit s], newCarry s⟩

/-- Iterated sub-steps. -/
def swbSteps (k : ℕ) (s : SWBState) : SWBState := swbStep^[k] s

/-- Modelled from the spec: `ranluxI_scalar::nextstate(n)` (body not in the
available sources) renews the whole 24-lane state vector `n` times, that is,
performs 24 n sub-steps; the test driver pairs `nextstate(stride)` with the
multiplier a^(24 stride). -/
def nextstate (n : ℕ) (s : SWBState) : SWBState := swbSteps (24 * n) s

/-- Value of a lane list read as a little-endian base 2^24 number
(lane 0 in the lowest 24 bits), as laid out by the conversion into the
9-word 576-bit packed state. -/
def ofD : List ℕ → ℕ
  | [] => 0
  | v :: l => v + bb * ofD l

/-- Modelled from the spec: `getlcgstate` (definition not in the available
sources) maps the unpacked state to the 576-bit LCG state: the packed lanes,
minus the top ten lanes shifted down by 14 lanes, plus the borrow bit. -/
def getlcgstate (s : SWBState) : ℕ :=
  ofD s.digits + s.carry - ofD s.digits / bb ^ 14

/-- Integer-valued form of `getlcgstate`, used for the algebra. -/
def lcgZ (s : SWBState) : ℤ :=
  (ofD s.digits : ℤ) + s.carry - ofD (s.digits.drop 14)

theorem ofD_append (u v : List ℕ) :
    ofD (u ++ v) = ofD u + bb ^ u.length * ofD v := by
  induction u with
  | nil => simp [ofD]
  | cons w t ih =>
      show w + bb * ofD (t ++ v) = (w + bb * ofD t) + bb ^ (t.length + 1) * ofD v
      rw [ih, pow_succ]
      ring

theorem ofD_lt (l : List ℕ) (h : ∀ v ∈ l, v < bb) : ofD l < bb ^ l.length := by
  induction l with
  | nil => simp [ofD]
  | cons w t ih =>
      have hw : w < bb := h w (by simp)
      have ht : ofD t < bb ^ t.length := ih fun v hv => h v (by simp [hv])
      calc ofD (w :: t) = w + bb * ofD t := rfl
        _ < bb * (ofD t + 1) := by rw [Nat.mul_add, Nat.mul_one]; omega
        _ ≤ bb * bb ^ t.length := Nat.mul_le_mul_left bb ht
        _ = bb ^ (w :: t).length := by
            rw [List.length_cons, pow_succ, mul_comm]

theorem ofD_div_bb (w : ℕ) (t : List ℕ) (hw : w < bb) :
    ofD (w :: t) / bb = ofD t := by
  have hbb : 0 < bb := by norm_num [bb]
  show (w + bb * ofD t) / bb = ofD t
  rw [Nat.add_mul_div_left w (ofD t) hbb, Nat.div_eq_of_lt hw, Nat.zero_add]

theorem ofD_div_pow (l : List ℕ) (h : ∀ v ∈ l, v < bb) (k : ℕ) :
    ofD l / bb ^ k = ofD (l.drop k) := by
  induction k generalizing l with
  | zero => simp
  | succ k ih =>
      rcases l with _ | ⟨w, t⟩
      · simp [ofD]
      · have hw : w < bb := h w (by simp)
        have ht : ∀ v ∈ t, v < bb := fun v hv => h v (by simp [hv])
        rw [pow_succ, mul_comm, ← Nat.div_div_eq_div_mul, ofD_div_bb w t hw,
          ih t ht]
        simp

theorem getlcgstate_cast (s : SWBState) (h : wfS s) :
    (getlcgstate s : ℤ) = lcgZ s := by
  have hdiv : ofD s.digits / bb ^ 14 = ofD (s.digits.drop 14) :=
    ofD_div_pow s.digits h.2.1 14
  have hle : ofD s.digits / bb ^ 14 ≤ ofD s.digits + s.carry :=
    le_trans (Nat.div_le_self _ _) (Nat.le_add_right _ _)
  unfold getlcgstate lcgZ
  rw [← hdiv]
  push_cast [hle]
  ring

theorem bb_pos : 0 < bb := by norm_num [bb]

theorem m_cast : (m : ℤ) = (bb : ℤ) ^ 24 - (bb : ℤ) ^ 10 + 1 := by
  norm_num [m, bb]

theorem getD_lt (s : SWBState) (h : wfS s) (i : ℕ) (hi : i < 24) :
    s.digits.getD i 0 < bb := by
  have hlen : i < s.digits.length := by rw [h.1]; exact hi
  rw [List.getD_eq_getElem s.digits 0 hlen]
  exact h.2.1 _ (List.getElem_mem hlen)

theorem newDigit_lt (s : SWBState) (h : wfS s) : newDigit s < bb := by
  have h0 := getD_lt s h 0 (by norm_num)
  have h14 := getD_lt s h 14 (by norm_num)
  unfold newDigit
  split <;> omega

theorem wfS_step (s : SWBState) (h : wfS s) : wfS (swbStep s) := by
  obtain ⟨hlen, hdig, hc⟩ := h
  refine ⟨?_, ?_, ?_⟩
  · show (s.digits.tail ++ [newDigit s]).length = 24
    rw [List.length_append, List.length_tail, hlen]
    norm_num
  · intro v hv
    rcases List.mem_append.1 hv with hv | hv
    · exact hdig v (List.mem_of_mem_tail hv)
    · rcases List.mem_singleton.1 hv with rfl
      exact newDigit_lt s ⟨hlen, hdig, hc⟩
  · show newCarry s ≤ 1
    unfold newCarry; split <;> omega

theorem newDigit_cast (s : SWBState) (h : wfS s) :
    (newDigit s : ℤ) =
      s.digits.getD 14 0 - s.digits.getD 0 0 - s.carry + bb * newCarry s := by
  have h0 := getD_lt s h 0 (by norm_num)
  have hc := h.2.2
  unfold newDigit newCarry
  split <;> push_cast <;> omega

theorem digits_cons (s : SWBState) (h : wfS s) :
    s.digits = s.digits.getD 0 0 :: s.digits.tail := by
  have h0 : 0 < s.digits.length := by rw [h.1]; norm_num
  have h00 : s.digits.drop 0 = s.digits.getD 0 0 :: s.digits.drop 1 := by
    rw [List.drop_eq_getElem_cons h0, List.getD_eq_getElem s.digits 0 h0]
  simpa [List.drop_one] using h00

theorem drop14_cons (s : SWBState) (h : wfS s) :
    s.digits.drop 14 = s.digits.getD 14 0 :: s.digits.drop 15 := by
  have h14 : 14 < s.digits.length := by rw [h.1]; norm_num
  rw [List.drop_eq_getElem_cons h14, List.getD_eq_getElem s.digits 0 h14]

/-- The exact one-sub-step identity: the digit base times the LCG value of the
stepped state equals the LCG value of the state plus the modulus times the
produced digit. -/
theorem step_identity (s : SWBState) (h : wfS s) :
    (bb : ℤ) * lcgZ (swbStep s) = lcgZ s + (m : ℤ) * newDigit s := by
  obtain ⟨hlen, hdig, hc⟩ := h
  have h' : wfS s := ⟨hlen, hdig, hc⟩
  have htail : s.digits.tail.length = 23 := by
    rw [List.length_tail, hlen]
  have hofD : (ofD (s.digits.tail ++ [newDigit s]) : ℤ)
      = ofD s.digits.tail + (bb : ℤ) ^ 23 * newDigit s := by
    rw [ofD_append, htail]
    push_cast
    simp [ofD]
  have hdrop : (s.digits.tail ++ [newDigit s]).drop 14
      = s.digits.drop 15 ++ [newDigit s] := by
    rw [List.drop_append_of_le_length (by rw [htail]; norm_num)]
    congr 1
    rw [← List.drop_one, List.drop_drop]
  have hdrop15len : (s.digits.drop 15).length = 9 := by
    rw [List.length_drop, hlen]
  have hofDdrop : (ofD ((s.digits.tail ++ [newDigit s]).drop 14) : ℤ)
      = ofD (s.digits.drop 15) + (bb : ℤ) ^ 9 * newDigit s := by
    rw [hdrop, ofD_append, hdrop15len]
    push_cast
    simp [ofD]
  have hofDfull : (ofD s.digits : ℤ)
      = s.digits.getD 0 0 + bb * ofD s.digits.tail := by
    calc (ofD s.digits : ℤ) = ofD (s.digits.getD 0 0 :: s.digits.tail) := by
          rw [← digits_cons s h']
      _ = s.digits.getD 0 0 + bb * ofD s.digits.tail := by
          push_cast [ofD]; ring
  have hofD14 : (ofD (s.digits.drop 14) : ℤ)
      = s.digits.getD 14 0 + bb * ofD (s.digits.drop 15) := by
    calc (ofD (s.digits.drop 14) : ℤ)
        = ofD (s.digits.getD 14 0 :: s.digits.drop 15) := by
          rw [← drop14_cons s h']
      _ = s.digits.getD 14 0 + bb * ofD (s.digits.drop 15) := by
          push_cast [ofD]; ring
  have hrel := newDigit_cast s h'
  show (bb : ℤ) * ((ofD (s.digits.tail ++ [newDigit s]) : ℤ) + newCarry s
      - ofD ((s.digits.tail ++ [newDigit s]).drop 14))
      = ((ofD s.digits : ℤ) + s.carry - ofD (s.digits.drop 14))
        + (m : ℤ) * newDigit s
  rw [hofD, hofDdrop, hofDfull, hofD14, m_cast]
  linear_combination -hrel

theorem m_pos : 0 < m := Nat.succ_pos _

theorem a_mul_bb : a * bb = m * (bb - 1) + 1 := by decide

theorem a_mul_bb_cast : (a : ℤ) * bb = m * ((bb : ℤ) - 1) + 1 := by
  have h1 : ((a * bb : ℕ) : ℤ) = ((m * (bb - 1) + 1 : ℕ) : ℤ) := by
    rw [a_mul_bb]
  have hble : (1 : ℕ) ≤ bb := by norm_num [bb]
  push_cast [hble] at h1
  linarith

theorem lcgZ_nonneg (s : SWBState) (h : wfS s) : 0 ≤ lcgZ s := by
  have hle : ofD (s.digits.drop 14) ≤ ofD s.digits := by
    rw [← ofD_div_pow s.digits h.2.1 14]
    exact Nat.div_le_self _ _
  unfold lcgZ
  push_cast
  omega

theorem swbSteps_succ (k : ℕ) (s : SWBState) :
    swbSteps (k + 1) s = swbStep (swbSteps k s) :=
  Function.iterate_succ_apply' swbStep k s

theorem wfS_steps (k : ℕ) (s : SWBState) (h : wfS s) : wfS (swbSteps k s) := by
  induction k with
  | zero => exact h
  | succ k ih => rw [swbSteps_succ]; exact wfS_step _ ih

theorem step_lt (s : SWBState) (h : wfS s) (hlt : getlcgstate s < m) :
    getlcgstate (swbStep s) < m := by
  have hid := step_identity s h
  have hd : newDigit s < bb := newDigit_lt s h
  have h' := wfS_step s h
  have hc1 := getlcgstate_cast s h
  have hc2 := getlcgstate_cast (swbStep s) h'
  have hkey : (bb : ℤ) * getlcgstate (swbStep s) < (bb : ℤ) * m := by
    rw [hc2, hid, ← hc1]
    have h1 : (getlcgstate s : ℤ) < m := by exact_mod_cast hlt
    have h2 : (m : ℤ) * newDigit s ≤ (m : ℤ) * (bb - 1) := by
      have hdz : (newDigit s : ℤ) ≤ (bb : ℤ) - 1 := by
        have := hd; push_cast; omega
      exact mul_le_mul_of_nonneg_left hdz (Int.natCast_nonneg m)
    have h3 : (m : ℤ) * ((bb : ℤ) - 1) = (bb : ℤ) * m - m := by ring
    linarith
  have := lt_of_mul_lt_mul_left hkey (Int.natCast_nonneg bb)
  exact_mod_cast this

theorem step_mod (s : SWBState) (h : wfS s) (hlt : getlcgstate s < m) :
    getlcgstate (swbStep s) = a * getlcgstate s % m := by
  have hid := step_identity s h
  have h' := wfS_step s h
  have hlt' := step_lt s h hlt
  have hc1 := getlcgstate_cast s h
  have hc2 := getlcgstate_cast (swbStep s) h'
  have hnn' : (0 : ℤ) ≤ getlcgstate (swbStep s) := Int.natCast_nonneg _
  have hmdvd : (getlcgstate s : ℤ) ≡ bb * getlcgstate (swbStep s) [ZMOD m] := by
    refine Int.ModEq.symm (Int.modEq_iff_dvd.mpr ⟨-(newDigit s : ℤ), ?_⟩)
    rw [hc1, hc2]
    linarith [hid]
  have habb : (a : ℤ) * bb ≡ 1 [ZMOD m] := by
    refine Int.ModEq.symm (Int.modEq_iff_dvd.mpr ⟨(bb : ℤ) - 1, ?_⟩)
    rw [a_mul_bb_cast]
    ring
  have hchain : (a : ℤ) * getlcgstate s ≡ getlcgstate (swbStep s) [ZMOD m] := by
    calc (a : ℤ) * getlcgstate s
        ≡ a * (bb * getlcgstate (swbStep s)) [ZMOD m] := hmdvd.mul_left a
      _ = (a * bb) * getlcgstate (swbStep s) := by ring
      _ ≡ 1 * getlcgstate (swbStep s) [ZMOD m] :=
          habb.mul_right (getlcgstate (swbStep s))
      _ = getlcgstate (swbStep s) := by ring
  have hfinal : ((a * getlcgstate s % m : ℕ) : ℤ)
      = (getlcgstate (swbStep s) : ℤ) := by
    push_cast
    rw [show ((a : ℤ) * getlcgstate s) % m = getlcgstate (swbStep s) % m
        from hchain]
    exact Int.emod_eq_of_lt hnn' (by exact_mod_cast hlt')
  exact_mod_cast hfinal.symm

/-- Well-formedness, the range bound and the power-of-a correspondence are
preserved along any number of sub-steps. -/
theorem steps_mod (k : ℕ) (s : SWBState) (h : wfS s)
    (hlt : getlcgstate s < m) :
    getlcgstate (swbSteps k s) < m ∧
      getlcgstate (swbSteps k s) = a ^ k * getlcgstate s % m := by
  induction k with
  | zero =>
      refine ⟨hlt, ?_⟩
      rw [pow_zero, one_mul, Nat.mod_eq_of_lt hlt]
      rfl
  | succ k ih =>
      obtain ⟨ihlt, ihmod⟩ := ih
      have hwk := wfS_steps k s h
      constructor
      · rw [swbSteps_succ]
        exact step_lt _ hwk ihlt
      · rw [swbSteps_succ, step_mod _ hwk ihlt, ihmod,
          Nat.mul_mod_mod, ← Nat.mul_assoc, pow_succ, Nat.mul_comm (a ^ k) a]

/-- List of the digits produced by the first `k` sub-steps, oldest first. -/
def produced : ℕ → SWBState → List ℕ
  | 0, _ => []
  | k + 1, s => produced k s ++ [newDigit (swbSteps k s)]

theorem produced_length (k : ℕ) (s : SWBState) : (produced k s).length = k := by
  induction k with
  | zero => rfl
  | succ k ih => simp [produced, ih]

theorem digits_steps (k : ℕ) (hk : k ≤ 24) (s : SWBState) (h : wfS s) :
    (swbSteps k s).digits = s.digits.drop k ++ produced k s := by
  induction k with
  | zero => simp [swbSteps, produced]
  | succ k ih =>
      have hk' : k ≤ 24 := by omega
      have hlen : 1 ≤ (s.digits.drop k).length := by
        rw [List.length_drop, h.1]; omega
      rw [swbSteps_succ]
      show (swbSteps k s).digits.tail ++ [newDigit (swbSteps k s)] = _
      rw [ih hk', produced, ← List.drop_one,
        List.drop_append_of_le_length hlen, List.drop_one, List.tail_drop,
        List.append_assoc]

theorem telescope (k : ℕ) (s : SWBState) (h : wfS s) :
    (bb : ℤ) ^ k * lcgZ (swbSteps k s) = lcgZ s + m * ofD (produced k s) := by
  induction k with
  | zero => simp [swbSteps, produced, ofD]
  | succ k ih =>
      have hwk := wfS_steps k s h
      have hid := step_identity (swbSteps k s) hwk
      have hofD : (ofD (produced (k + 1) s) : ℤ)
          = ofD (produced k s) + (bb : ℤ) ^ k * newDigit (swbSteps k s) := by
        show (ofD (produced k s ++ [newDigit (swbSteps k s)]) : ℤ) = _
        rw [ofD_append, produced_length]
        push_cast
        simp [ofD]
      rw [swbSteps_succ]
      calc (bb : ℤ) ^ (k + 1) * lcgZ (swbStep (swbSteps k s))
          = (bb : ℤ) ^ k * ((bb : ℤ) * lcgZ (swbStep (swbSteps k s))) := by
            ring
        _ = (bb : ℤ) ^ k * (lcgZ (swbSteps k s)
              + m * newDigit (swbSteps k s)) := by rw [hid]
        _ = (bb : ℤ) ^ k * lcgZ (swbSteps k s)
              + m * ((bb : ℤ) ^ k * newDigit (swbSteps k s)) := by ring
        _ = lcgZ s + m * ofD (produced (k + 1) s) := by rw [ih, hofD]; ring

theorem ofD_mod_bb (w : ℕ) (t : List ℕ) (hw : w < bb) :
    ofD (w :: t) % bb = w := by
  show (w + bb * ofD t) % bb = w
  rw [Nat.add_mul_mod_self_left, Nat.mod_eq_of_lt hw]

/-- Modelled from the spec: `getranluxseq` (definition not in the available
sources) converts the 576-bit LCG state back to the 24 lanes and the borrow
bit.  The packed lane value is the quotient of 2^576 times the state by the
modulus (stepping the generator 24 sub-steps backwards), the lanes are its
base 2^24 digits, and the borrow bit is what the forward conversion
`getlcgstate` must add back. -/
def getranluxseq (x : ℕ) : SWBState :=
  ⟨(List.range 24).map (fun i => bb ^ 24 * x / m / bb ^ i % bb),
   x + bb ^ 24 * x / m / bb ^ 14 - bb ^ 24 * x / m⟩

/-- After a full renewal of the 24-lane window, the two conversions are
mutually inverse: `getranluxseq` recovers the state exactly. -/
theorem roundtrip24 (t : SWBState) (h : wfS t) (hlt : getlcgstate t < m) :
    getranluxseq (getlcgstate (swbSteps 24 t)) = swbSteps 24 t := by
  have hw24 : wfS (swbSteps 24 t) := wfS_steps 24 t h
  have hlt24 : getlcgstate (swbSteps 24 t) < m := (steps_mod 24 t h hlt).1
  have hdrop24 : t.digits.drop 24 = [] := by
    apply List.drop_eq_nil_of_le
    rw [h.1]
  have hdig24 : (swbSteps 24 t).digits = produced 24 t := by
    rw [digits_steps 24 le_rfl t h, hdrop24, List.nil_append]
  have htel : (bb : ℤ) ^ 24 * lcgZ (swbSteps 24 t)
      = lcgZ t + m * ofD ((swbSteps 24 t).digits) := by
    rw [hdig24]; exact telescope 24 t h
  have hnat : bb ^ 24 * getlcgstate (swbSteps 24 t)
      = getlcgstate t + m * ofD ((swbSteps 24 t).digits) := by
    have := htel
    rw [← getlcgstate_cast t h, ← getlcgstate_cast _ hw24] at this
    exact_mod_cast this
  have hP : bb ^ 24 * getlcgstate (swbSteps 24 t) / m
      = ofD ((swbSteps 24 t).digits) := by
    rw [hnat, Nat.add_mul_div_left _ _ m_pos, Nat.div_eq_of_lt hlt, zero_add]
  have hdigeq : (List.range 24).map
        (fun i => bb ^ 24 * getlcgstate (swbSteps 24 t) / m / bb ^ i % bb)
      = (swbSteps 24 t).digits := by
    apply List.ext_getElem
    · rw [List.length_map, List.length_range, hw24.1]
    · intro i h1 h2
      simp only [List.getElem_map, List.getElem_range]
      rw [hP, ofD_div_pow _ hw24.2.1 i,
        List.drop_eq_getElem_cons h2,
        ofD_mod_bb _ _ (hw24.2.1 _ (List.getElem_mem h2))]
  have hHle : ofD ((swbSteps 24 t).digits) / bb ^ 14
      ≤ ofD ((swbSteps 24 t).digits) := Nat.div_le_self _ _
  have hcarryeq : getlcgstate (swbSteps 24 t)
        + bb ^ 24 * getlcgstate (swbSteps 24 t) / m / bb ^ 14
        - bb ^ 24 * getlcgstate (swbSteps 24 t) / m
      = (swbSteps 24 t).carry := by
    rw [hP]
    have hX : getlcgstate (swbSteps 24 t)
        = ofD ((swbSteps 24 t).digits) + (swbSteps 24 t).carry
          - ofD ((swbSteps 24 t).digits) / bb ^ 14 := rfl
    omega
  show (⟨_, _⟩ : SWBState) = swbSteps 24 t
  rw [hdigeq, hcarryeq]

/-- Reachable unpacked states: those an engine can be in after at least one
full renewal of the 24-lane window (every `nextstate` call performs at least
24 sub-steps), starting from any well-formed state whose LCG image is below
the modulus.  Every seeded engine state satisfies the latter two conditions,
so this covers every state an engine reaches after its first refill. -/
def Reachable (s : SWBState) : Prop :=
  ∃ t k, wfS t ∧ getlcgstate t < m ∧ 24 ≤ k ∧ s = swbSteps k t

theorem steps_split (k : ℕ) (hk : 24 ≤ k) (t : SWBState) :
    swbSteps k t = swbSteps 24 (swbSteps (k - 24) t) := by
  unfold swbSteps
  rw [← Function.iterate_add_apply]
  congr 1
  omega

theorem roundtrip_reachable (s : SWBState) (h : Reachable s) :
    getranluxseq (getlcgstate s) = s := by
  obtain ⟨t, k, hw, hlt, hk, rfl⟩ := h
  rw [steps_split k hk t]
  exact roundtrip24 _ (wfS_steps _ _ hw) (steps_mod (k - 24) t hw hlt).1

/-- Modelled from the spec: the big-integer modular engine `ranluxpp`
(class defined in `ranluxpp.h`, not among the available sources) holds the
packed 576-bit state `x` (the 9 64-bit words of `getstate`), kept below the
modulus, and the precomputed multiplier `A` = a^p mod m of `getmultiplier`. -/
structure ranluxpp where
  x : ℕ
  A : ℕ
  deriving DecidableEq

/-- Modelled from the spec: construction with skip distance `p` precomputes
A = a^p mod m by modular exponentiation; here the state is whatever 576-bit
value the caller installs (the test driver overwrites it through
`getstate`). -/
def mkRanluxpp (p x0 : ℕ) : ranluxpp := ⟨x0, a ^ p % m⟩

/-- Modelled from the spec: `ranluxpp::nextstate`, one advance of the
big-integer engine, state ← state times A modulo m. -/
def lcgNextstate (g : ranluxpp) : ranluxpp := ⟨g.A * g.x % m, g.A⟩

theorem lcgNextstate_A (n : ℕ) (g : ranluxpp) :
    (lcgNextstate^[n] g).A = g.A := by
  induction n with
  | zero => rfl
  | succ n ih => rw [Function.iterate_succ_apply', lcgNextstate, ih]

theorem lcgNextstate_iter (p n x0 : ℕ) (hx : x0 < m) :
    (lcgNextstate^[n] (mkRanluxpp p x0)).x = a ^ (n * p) * x0 % m := by
  induction n with
  | zero =>
      show x0 = a ^ (0 * p) * x0 % m
      rw [Nat.zero_mul, pow_zero, Nat.one_mul, Nat.mod_eq_of_lt hx]
  | succ n ih =>
      rw [Function.iterate_succ_apply']
      show (lcgNextstate^[n] (mkRanluxpp p x0)).A
          * (lcgNextstate^[n] (mkRanluxpp p x0)).x % m = _
      rw [lcgNextstate_A, ih]
      show a ^ p % m * (a ^ (n * p) * x0 % m) % m = _
      rw [Nat.mod_mul_mod, Nat.mul_mod_mod, ← Nat.mul_assoc, ← pow_add]
      congr 2
      ring

/-- Modelled from the spec: the seed expansion of the reference algorithm
used by `ranluxI_scalar::init` (body not in the available sources): the
classical routine iterates j := 40014 j mod 2147483563 (computed there with
the Schrage technique, which is exact) and takes each lane as j mod 2^24. -/
def jstep (j : ℕ) : ℕ := 40014 * j % 2147483563

/-- Modelled from the spec: a zero seed selects the historical default. -/
def jseed (seed : ℕ) : ℕ := if seed = 0 then 314159265 else seed

/-- Modelled from the spec: the 24 seeded lanes, oldest first. -/
def seedLanes (seed : ℕ) : List ℕ :=
  (List.range 24).map (fun i => jstep^[i + 1] (jseed seed) % bb)

/-- Modelled from the spec: `ranluxI_scalar::init` seeds the lanes by the
reference expansion; the borrow bit starts at 1 exactly when the newest
seeded lane is 0, as in the reference algorithm. -/
def init (seed : ℕ) : SWBState :=
  ⟨seedLanes seed, if jstep^[24] (jseed seed) % bb = 0 then 1 else 0⟩

theorem wfS_init (seed : ℕ) : wfS (init seed) := by
  refine ⟨?_, ?_, ?_⟩
  · show (seedLanes seed).length = 24
    rw [seedLanes, List.length_map, List.length_range]
  · intro v hv
    have hv' : v ∈ seedLanes seed := hv
    unfold seedLanes at hv'
    rw [List.mem_map] at hv'
    obtain ⟨i, _, rfl⟩ := hv'
    exact Nat.mod_lt _ bb_pos
  · unfold init
    split <;> simp

theorem lor_eq_add (k x y : ℕ) (hx : x % 2 ^ k = 0) (hy : y < 2 ^ k) :
    x ||| y = x + y := by
  obtain ⟨c, rfl⟩ := Nat.dvd_of_mod_eq_zero hx
  apply Nat.eq_of_testBit_eq
  intro i
  rw [Nat.testBit_lor]
  rcases Nat.lt_or_ge i k with hik | hik
  · have hsplit : (2 : ℕ) ^ k = 2 ^ i * (2 * 2 ^ (k - i - 1)) := by
      rw [← pow_succ', ← pow_add]
      congr 1
      omega
    have hxbit : (2 ^ k * c).testBit i = false := by
      rw [Nat.testBit_to_div_mod]
      have hdiv : 2 ^ k * c / 2 ^ i = 2 * (2 ^ (k - i - 1) * c) := by
        rw [hsplit, Nat.mul_assoc, Nat.mul_div_cancel_left _ (Nat.pos_pow_of_pos i (by norm_num))]
        ring
      rw [hdiv]
      simp [Nat.mul_mod_right]
    have hsumbit : (2 ^ k * c + y).testBit i = y.testBit i := by
      rw [Nat.testBit_to_div_mod, Nat.testBit_to_div_mod]
      have hdiv : (2 ^ k * c + y) / 2 ^ i
          = y / 2 ^ i + 2 * (2 ^ (k - i - 1) * c) := by
        rw [Nat.add_comm, hsplit, Nat.mul_assoc,
          Nat.add_mul_div_left _ _ (Nat.pos_pow_of_pos i (by norm_num))]
        ring_nf
      rw [hdiv, Nat.add_mul_mod_self_left]
    rw [hxbit, hsumbit]
    simp
  · have hybit : y.testBit i = false :=
      Nat.testBit_lt_two_pow
        (lt_of_lt_of_le hy (Nat.pow_le_pow_right (by norm_num) hik))
    have hsplit : (2 : ℕ) ^ i = 2 ^ k * 2 ^ (i - k) := by
      rw [← pow_add]
      congr 1
      omega
    have hsumbit : (2 ^ k * c + y).testBit i = (2 ^ k * c).testBit i := by
      rw [Nat.testBit_to_div_mod, Nat.testBit_to_div_mod]
      have h1 : (2 ^ k * c + y) / 2 ^ i = c / 2 ^ (i - k) := by
        rw [hsplit, ← Nat.div_div_eq_div_mul,
          Nat.mul_add_div (Nat.pos_pow_of_pos k (by norm_num)),
          Nat.div_eq_of_lt hy, Nat.add_zero]
      have h2 : 2 ^ k * c / 2 ^ i = c / 2 ^ (i - k) := by
        rw [hsplit, ← Nat.div_div_eq_div_mul,
          Nat.mul_div_cancel_left _ (Nat.pos_pow_of_pos k (by norm_num))]
      rw [h1, h2]
    rw [hybit, hsumbit]
    simp

/-- One group of the 32-bit export loop of `inc/ranlux.h`: from four
consecutive 32-bit reads v w u z it forms the three output words
(v shl 8) or (w shr 16), (w shl 16) or (u shr 8), (u shl 24) or z,
each truncated to 32 bits by the `uint32_t` assignment. -/
def packTriple (v w u z : ℕ) : List ℕ :=
  [(v <<< 8) % 2 ^ 32 ||| w >>> 16,
   (w <<< 16) % 2 ^ 32 ||| u >>> 8,
   (u <<< 24) % 2 ^ 32 ||| z]

/-- The export loop shared by the scalar, SSE and AVX word exporters
(`nextstate_and_get_uint32_vector`, lines 59-69, 88-100 and 120-132 of
`inc/ranlux.h`): `groups` iterations, iteration t consuming the four 32-bit
array elements at indices 4t..4t+3 and emitting three 32-bit words. -/
def exportLoop (y : ℕ → ℕ) : ℕ → List ℕ
  | 0 => []
  | t + 1 =>
      exportLoop y t
        ++ packTriple (y (4 * t)) (y (4 * t + 1)) (y (4 * t + 2)) (y (4 * t + 3))

theorem packTriple_eq (v w u z : ℕ) (hv : v < bb) (hw : w < bb) (hu : u < bb)
    (hz : z < bb) :
    packTriple v w u z
      = [v * 2 ^ 8 + w / 2 ^ 16,
         w % 2 ^ 16 * 2 ^ 16 + u / 2 ^ 8,
         u % 2 ^ 8 * 2 ^ 24 + z] := by
  have hbb : bb = 2 ^ 24 := rfl
  rw [hbb] at hv hw hu hz
  unfold packTriple
  rw [Nat.shiftLeft_eq, Nat.shiftLeft_eq, Nat.shiftLeft_eq,
    Nat.shiftRight_eq_div_pow, Nat.shiftRight_eq_div_pow]
  have e1 : v * 2 ^ 8 % 2 ^ 32 = v * 2 ^ 8 := Nat.mod_eq_of_lt (by omega)
  have e2 : w * 2 ^ 16 % 2 ^ 32 = w % 2 ^ 16 * 2 ^ 16 := by
    have : (2 : ℕ) ^ 32 = 2 ^ 16 * 2 ^ 16 := by norm_num
    rw [this, Nat.mul_mod_mul_right]
  have e3 : u * 2 ^ 24 % 2 ^ 32 = u % 2 ^ 8 * 2 ^ 24 := by
    have : (2 : ℕ) ^ 32 = 2 ^ 8 * 2 ^ 24 := by norm_num
    rw [this, Nat.mul_mod_mul_right]
  rw [e1, e2, e3,
    lor_eq_add 8 _ _ (by omega) (by omega),
    lor_eq_add 16 _ _ (by omega) (by omega),
    lor_eq_add 24 _ _ (by omega) (by omega)]

/-- Scalar engine `ranluxI_scalar` of `inc/ranlux.h`: the unpacked state
(members `_x` and `_c`), the skip count `_p` and the cursor `_pos`. -/
structure ScalarEngine where
  st : SWBState
  p : ℕ
  pos : ℕ
  deriving DecidableEq

/-- Modelled from the spec: the constructor `ranluxI_scalar(seed, lux)` seeds
the state by the reference expansion and stores the skip count; the cursor
starts at the beginning of the seeded batch, which is delivered first as in
the reference algorithm. -/
def mkScalar (seed lux : ℕ) : ScalarEngine := ⟨init seed, lux, 0⟩

/-- The draw operator `ranluxI_scalar::operator()` (lines 51-54 of
`inc/ranlux.h`): on batch exhaustion reset the cursor and advance by `_p`
whole-state renewals; deliver the lane at the cursor, scaled by the float
constant 1.0f/0x1p24f.  A 24-bit integer is exactly representable in single
precision and the scaling is an exact power-of-two multiplication, so the
delivered float is modelled by the exact rational lane/2^24. -/
def scalarDraw (e : ScalarEngine) : ℚ × ScalarEngine :=
  if 24 ≤ e.pos then
    let st := nextstate e.p e.st
    ((st.digits.getD 0 0 : ℚ) / 2 ^ 24, ⟨st, e.p, 1⟩)
  else
    ((e.st.digits.getD e.pos 0 : ℚ) / 2 ^ 24, ⟨e.st, e.p, e.pos + 1⟩)

/-- The first `n` values delivered by repeated calls of the draw operator. -/
def scalarDraws : ℕ → ScalarEngine → List ℚ
  | 0, _ => []
  | n + 1, e => (scalarDraw e).1 :: scalarDraws n (scalarDraw e).2

/-- The 18-word 32-bit repacking of a 24-lane batch, as in
`ranluxI_scalar::nextstate_and_get_uint32_vector` (6 groups of 4 lanes). -/
def uint32Export (l : List ℕ) : List ℕ := exportLoop (fun j => l.getD j 0) 6

/-- `ranluxI_scalar::nextstate_and_get_uint32_vector` (lines 59-69 of
`inc/ranlux.h`): advance the state by `_p` renewals, then emit the 18 32-bit
words; `_pos` and `_p` are not touched. -/
def scalarExportOp (e : ScalarEngine) : ScalarEngine × List ℕ :=
  (⟨nextstate e.p e.st, e.p, e.pos⟩,
   uint32Export (nextstate e.p e.st).digits)

/-- SIMD engine (`ranluxI_SSE`, width 4, and `ranluxI_AVX`, width 8, of
`inc/ranlux.h`): member `_x[24]` holds one vector register per state
position; the 32-bit element `l` of `_x[k]` is state word `k` of the
independent lane-`l` stream.  Modelled with one `SWBState` per lane. -/
structure SimdEngine where
  width : ℕ
  lanes : ℕ → SWBState
  p : ℕ
  pos : ℕ

/-- The flattened 32-bit view of the SIMD state array produced by the C
casts `(int32_t*)_x`: flat element `j` is element `j mod width` of vector
`_x[j / width]`, that is, state word `j / width` of lane `j mod width`. -/
def simdMem (e : SimdEngine) (j : ℕ) : ℕ :=
  (e.lanes (j % e.width)).digits.getD (j / e.width) 0

/-- Modelled from the spec: SIMD `nextstate` applies the scalar recurrence
to every lane in parallel. -/
def simdNextstate (e : SimdEngine) : SimdEngine :=
  ⟨e.width, fun l => nextstate e.p (e.lanes l), e.p, e.pos⟩

/-- The SIMD draw operator (`ranluxI_SSE::operator()`, lines 83-86, and
`ranluxI_AVX::operator()`, lines 115-118 of `inc/ranlux.h`): on exhaustion
of the width times 24 batch reset the cursor and advance every lane; deliver
the flattened 32-bit element at the cursor scaled by 2^-24 (exact, as in the
scalar case). -/
def simdDraw (e : SimdEngine) : ℚ × SimdEngine :=
  if e.width * 24 ≤ e.pos then
    let e' := simdNextstate e
    ((simdMem e' 0 : ℚ) / 2 ^ 24, ⟨e'.width, e'.lanes, e'.p, 1⟩)
  else
    ((simdMem e e.pos : ℚ) / 2 ^ 24, ⟨e.width, e.lanes, e.p, e.pos + 1⟩)

/-- `ranluxI_SSE::nextstate_and_get_uint32_vector` (lines 88-100 of
`inc/ranlux.h`): advance all lanes by `_p`, then run the export loop for
4 times 18 output words (24 groups) over the flattened state; `_pos` and
`_p` are not touched. -/
def sseExportOp (e : SimdEngine) : SimdEngine × List ℕ :=
  (simdNextstate e, exportLoop (simdMem (simdNextstate e)) 24)

/-- `ranluxI_AVX::nextstate_and_get_uint32_vector` (lines 120-132 of
`inc/ranlux.h`): advance all lanes by `_p`, then run the export loop for
8 times 18 output words (48 groups) over the flattened state. -/
def avxExportOp (e : SimdEngine) : SimdEngine × List ℕ :=
  (simdNextstate e, exportLoop (simdMem (simdNextstate e)) 48)

/-- Concatenation of per-lane word lists, lane 0 first. -/
def laneConcat (f : ℕ → List ℕ) : ℕ → List ℕ
  | 0 => []
  | l + 1 => laneConcat f l ++ f l

/-- The export order asserted by the specification for the SIMD engines:
the scalar 18-word export applied to each lane separately, emitted in
lane-major order.  This definition follows the words of the specification,
for comparison with the source exporter. -/
def laneMajorExport (e : SimdEngine) : List ℕ :=
  laneConcat (fun l => uint32Export (e.lanes l).digits) e.width

/-- Word-major packing for a 4-lane engine: for each state position, the
four lanes of that position packed into three 32-bit words. -/
def wordMajor4 (st : ℕ → SWBState) : ℕ → List ℕ
  | 0 => []
  | t + 1 =>
      wordMajor4 st t
        ++ packTriple ((st 0).digits.getD t 0) ((st 1).digits.getD t 0)
            ((st 2).digits.getD t 0) ((st 3).digits.getD t 0)

/-- Word-major packing for an 8-lane engine: for each state position, lanes
0..3 of that position packed into three words, then lanes 4..7. -/
def wordMajor8 (st : ℕ → SWBState) : ℕ → List ℕ
  | 0 => []
  | t + 1 =>
      wordMajor8 st t
        ++ packTriple ((st 0).digits.getD t 0) ((st 1).digits.getD t 0)
            ((st 2).digits.getD t 0) ((st 3).digits.getD t 0)
        ++ packTriple ((st 4).digits.getD t 0) ((st 5).digits.getD t 0)
            ((st 6).digits.getD t 0) ((st 7).digits.getD t 0)

theorem simdMem_at (e : SimdEngine) (w q r : ℕ) (hw : e.width = w)
    (hr : r < w) :
    simdMem e (w * q + r) = (e.lanes r).digits.getD q 0 := by
  unfold simdMem
  rw [hw, Nat.mul_add_mod, Nat.mod_eq_of_lt hr,
    Nat.mul_add_div (by omega), Nat.div_eq_of_lt hr, Nat.add_zero]

theorem sse_export_wordMajor (e : SimdEngine) (hw : e.width = 4) (g : ℕ) :
    exportLoop (simdMem e) g = wordMajor4 e.lanes g := by
  induction g with
  | zero => rfl
  | succ t ih =>
      show exportLoop (simdMem e) t ++ _ = wordMajor4 e.lanes t ++ _
      rw [ih,
        show 4 * t = 4 * t + 0 from rfl,
        simdMem_at e 4 t 0 hw (by omega),
        simdMem_at e 4 t 1 hw (by omega),
        simdMem_at e 4 t 2 hw (by omega),
        simdMem_at e 4 t 3 hw (by omega)]

theorem avx_export_wordMajor (e : SimdEngine) (hw : e.width = 8) (g : ℕ) :
    exportLoop (simdMem e) (2 * g) = wordMajor8 e.lanes g := by
  induction g with
  | zero => rfl
  | succ t ih =>
      have h2 : 2 * (t + 1) = (2 * t + 1) + 1 := by ring
      rw [h2]
      show exportLoop (simdMem e) (2 * t) ++ _ ++ _ = _
      rw [ih,
        show 4 * (2 * t) + 1 = 8 * t + 1 from by ring,
        show 4 * (2 * t) + 2 = 8 * t + 2 from by ring,
        show 4 * (2 * t) + 3 = 8 * t + 3 from by ring,
        show 4 * (2 * t) = 8 * t + 0 from by ring,
        show 4 * (2 * t + 1) + 1 = 8 * t + 5 from by ring,
        show 4 * (2 * t + 1) + 2 = 8 * t + 6 from by ring,
        show 4 * (2 * t + 1) + 3 = 8 * t + 7 from by ring,
        show 4 * (2 * t + 1) = 8 * t + 4 from by ring,
        simdMem_at e 8 t 0 hw (by omega),
        simdMem_at e 8 t 1 hw (by omega),
        simdMem_at e 8 t 2 hw (by omega),
        simdMem_at e 8 t 3 hw (by omega),
        simdMem_at e 8 t 4 hw (by omega),
        simdMem_at e 8 t 5 hw (by omega),
        simdMem_at e 8 t 6 hw (by omega),
        simdMem_at e 8 t 7 hw (by omega)]
      rw [wordMajor8, List.append_assoc]

/-- The engine after `n` successive calls of the SIMD draw operator. -/
def simdAfter (n : ℕ) (e : SimdEngine) : SimdEngine :=
  (fun e => (simdDraw e).2)^[n] e

theorem simdAfter_spec (e : SimdEngine) (h0 : e.pos = 0) (i : ℕ)
    (hi : i ≤ e.width * 24) :
    simdAfter i e = ⟨e.width, e.lanes, e.p, i⟩ := by
  induction i with
  | zero =>
      show e = _
      rw [← h0]
  | succ i ih =>
      have hstep : simdAfter (i + 1) e = (simdDraw (simdAfter i e)).2 := by
        unfold simdAfter
        rw [Function.iterate_succ_apply']
      rw [hstep, ih (by omega)]
      unfold simdDraw
      rw [if_neg (by simp only []; omega)]

/-- Modelled from the spec: the delivery state of the legacy emulation layer
`ranluxI_James` (method bodies not in the available sources): the current
24-lane window with its borrow bit, the count `in24` of numbers delivered
since the last luxury skip, and the skip count `nskip` (skipped sub-steps
per 24 delivered numbers). -/
structure JamesState where
  st : SWBState
  in24 : ℕ
  nskip : ℕ
  deriving DecidableEq

/-- Well-formed legacy states: well-formed window, delivery count below 24. -/
def wfJ (j : JamesState) : Prop := wfS j.st ∧ j.in24 < 24

instance (j : JamesState) : Decidable (wfJ j) := by
  unfold wfJ; infer_instance

/-- Modelled from the spec: one delivered number of the legacy layer: the
next sub-step digit scaled to a float; after every 24 delivered numbers the
layer generates and discards `nskip` further numbers. -/
def jamesDraw (j : JamesState) : ℚ × JamesState :=
  ((newDigit j.st : ℚ) / 2 ^ 24,
   if j.in24 + 1 = 24 then
     ⟨swbSteps j.nskip (swbStep j.st), 0, j.nskip⟩
   else
     ⟨swbStep j.st, j.in24 + 1, j.nskip⟩)

/-- The first `n` numbers delivered by the legacy layer. -/
def jamesDraws : ℕ → JamesState → List ℚ
  | 0, _ => []
  | n + 1, j => (jamesDraw j).1 :: jamesDraws n (jamesDraw j).2

/-- Modelled from the spec: `rluxut` captures the full 25-word state vector
in the classical layout: the 24 lanes, then one word packing the delivery
position and the skip metadata, with the sign recording the borrow bit. -/
def rluxut (j : JamesState) : List ℤ :=
  j.st.digits.map (fun v : ℕ => (v : ℤ))
    ++ [(if j.st.carry = 0 then (1 : ℤ) else (-1 : ℤ)) * (1 + j.in24 + 100 * j.nskip)]

/-- Modelled from the spec: `rluxin` restores the engine from a captured
25-word vector, inverting the classical layout. -/
def rluxin (v : List ℤ) : JamesState :=
  ⟨⟨(v.take 24).map Int.toNat, if v.getD 24 0 < 0 then 1 else 0⟩,
   ((v.getD 24 0).natAbs - 1) % 100,
   ((v.getD 24 0).natAbs - 1) / 100⟩

theorem rluxut_getD24 (j : JamesState) (h : wfJ j) :
    (rluxut j).getD 24 0
      = (if j.st.carry = 0 then (1 : ℤ) else (-1 : ℤ)) * (1 + j.in24 + 100 * j.nskip) := by
  unfold rluxut
  have hlen : (j.st.digits.map (fun v : ℕ => (v : ℤ))).length = 24 := by
    rw [List.length_map, h.1.1]
  rw [List.getD_eq_getElem?_getD, List.getElem?_append_right (by omega),
    hlen]
  rfl

theorem rluxin_rluxut (j : JamesState) (h : wfJ j) :
    rluxin (rluxut j) = j := by
  obtain ⟨⟨hlen, hdig, hc⟩, hin⟩ := h
  have hlen' : (j.st.digits.map (fun v : ℕ => (v : ℤ))).length = 24 := by
    rw [List.length_map, hlen]
  have htake : (rluxut j).take 24 = j.st.digits.map (fun v : ℕ => (v : ℤ)) := by
    unfold rluxut
    rw [← hlen', List.take_left]
  have hdigits : ((rluxut j).take 24).map Int.toNat = j.st.digits := by
    rw [htake, List.map_map]
    have : (Int.toNat ∘ fun v : ℕ => (v : ℤ)) = id := by
      funext v
      simp
    rw [this, List.map_id]
  have hword := rluxut_getD24 j ⟨⟨hlen, hdig, hc⟩, hin⟩
  have habs : ((rluxut j).getD 24 0).natAbs = 1 + j.in24 + 100 * j.nskip := by
    rw [hword]
    rcases Nat.le_one_iff_eq_zero_or_eq_one.1 hc with h0 | h1
    · rw [if_pos h0, one_mul]
      have : ((1 : ℤ) + j.in24 + 100 * j.nskip)
          = ((1 + j.in24 + 100 * j.nskip : ℕ) : ℤ) := by push_cast; ring
      rw [this, Int.natAbs_ofNat]
    · rw [if_neg (by omega)]
      have : ((-1 : ℤ)) * (1 + j.in24 + 100 * j.nskip)
          = -(((1 + j.in24 + 100 * j.nskip : ℕ) : ℤ)) := by push_cast; ring
      rw [this, Int.natAbs_neg, Int.natAbs_ofNat]
  have hsign : ((rluxut j).getD 24 0 < 0) = (j.st.carry = 1) := by
    rw [hword]
    rcases Nat.le_one_iff_eq_zero_or_eq_one.1 hc with h0 | h1
    · rw [if_pos h0, one_mul]
      simp only [eq_iff_iff]
      constructor
      · intro hneg
        exfalso
        have : (0 : ℤ) < 1 + j.in24 + 100 * j.nskip := by positivity
        omega
      · intro h1'
        omega
    · rw [if_neg (by omega)]
      simp only [eq_iff_iff]
      constructor
      · intro _
        exact h1
      · intro _
        have hpos : (0 : ℤ) < 1 + j.in24 + 100 * j.nskip := by positivity
        nlinarith
  unfold rluxin
  rw [hdigits, habs]
  have hin24 : (1 + j.in24 + 100 * j.nskip - 1) % 100 = j.in24 := by omega
  have hnskip : (1 + j.in24 + 100 * j.nskip - 1) / 100 = j.nskip := by omega
  rw [hin24, hnskip]
  rcases Nat.le_one_iff_eq_zero_or_eq_one.1 hc with h0 | h1
  · rw [if_neg (by rw [hsign]; omega)]
    show (⟨⟨j.st.digits, 0⟩, j.in24, j.nskip⟩ : JamesState) = j
    rw [← h0]
  · rw [if_pos (by rw [hsign]; exact h1)]
    show (⟨⟨j.st.digits, 1⟩, j.in24, j.nskip⟩ : JamesState) = j
    rw [← h1]

/-- Skip distances of the classical luxury table, levels 0 to 4. -/
def luxTable : List ℕ := [24, 48, 97, 223, 389]

/-- Modelled from the spec: `ranluxI_James::setlux` follows the contract of
the original RLUXGO, on which the test driver in `tests/ranlux_test.cxx`
relies when it passes 389 and 75 directly as skip distances: a negative
luxury argument selects the default level 3, levels 0 to 4 select the table
entry, a value from 24 to 2000 is taken directly as the skip distance p,
and any other value selects the highest level 4.  Returns the skip distance
p; the layer stores p - 24 as `_nskip`. -/
def setlux (lux : ℤ) : ℕ :=
  if lux < 0 then 223
  else if lux ≤ 4 then luxTable.getD lux.toNat 0
  else if 24 ≤ lux ∧ lux ≤ 2000 then lux.toNat
  else 389

/-- The behaviour asserted by the specification sentence, for comparison:
an out-of-table luxury argument maps to the nearest defined luxury level. -/
def nearestLevelP (lux : ℤ) : ℕ :=
  if lux < 0 then luxTable.getD 0 0
  else if 4 < lux then luxTable.getD 4 0
  else luxTable.getD lux.toNat 0

theorem getD_lt_bb (s : SWBState) (h : wfS s) (i : ℕ) :
    s.digits.getD i 0 < bb := by
  rcases Nat.lt_or_ge i s.digits.length with hi | hi
  · rw [List.getD_eq_getElem s.digits 0 hi]
    exact h.2.1 _ (List.getElem_mem hi)
  · rw [List.getD_eq_default s.digits 0 hi]
    exact bb_pos

theorem qval_bounds (d : ℕ) (hd : d < bb) :
    0 ≤ (d : ℚ) / 2 ^ 24 ∧ (d : ℚ) / 2 ^ 24 < 1 := by
  constructor
  · positivity
  · rw [div_lt_one (by positivity)]
    have h2 : d < 2 ^ 24 := hd
    exact_mod_cast h2

/-- Claim C1: for every seed state and every configured skip distance p in
the set 24, 48, 97, 223, 389, 2048, each call of the big-integer engine
advance (state times A modulo m, with A = a^p mod m) produces a state that
`getranluxseq` (the spec name is toSWBState) converts to exactly the
unpacked state the scalar subtract-with-borrow engine reaches after p
sub-steps, at every iteration n of repeated advancing, both engines started
from corresponding states (`getlcgstate`, the spec name toLCGState). -/
theorem claim_C1 (s0 : SWBState) (p n : ℕ) (hw : wfS s0)
    (hx : getlcgstate s0 < m)
    (hp : p ∈ ([24, 48, 97, 223, 389, 2048] : List ℕ)) (hn : 1 ≤ n) :
    getranluxseq ((lcgNextstate^[n] (mkRanluxpp p (getlcgstate s0))).x)
      = swbSteps (n * p) s0 := by
  have hp24 : 24 ≤ p := by
    fin_cases hp <;> norm_num
  have h24np : 24 ≤ n * p := le_trans hp24 (Nat.le_mul_of_pos_left p hn)
  have hiter := lcgNextstate_iter p n (getlcgstate s0) hx
  have hsm := (steps_mod (n * p) s0 hw hx).2
  rw [hiter, ← hsm, steps_split (n * p) h24np s0]
  exact roundtrip24 _ (wfS_steps _ _ hw) (steps_mod (n * p - 24) s0 hw hx).1

theorem claim_C1_witness :
    wfS (init 1) ∧ getlcgstate (init 1) < m ∧
      getranluxseq ((lcgNextstate^[1] (mkRanluxpp 24 (getlcgstate (init 1)))).x)
        = swbSteps (1 * 24) (init 1) :=
  ⟨by decide, by decide,
   claim_C1 (init 1) 24 1 (by decide) (by decide) (by decide) (by decide)⟩

/-- Claim C2: on every reachable unpacked state the two conversion
primitives are exact inverses: `getranluxseq` (toSWBState) applied to
`getlcgstate` (toLCGState) is the identity. -/
theorem claim_C2 (s : SWBState) (h : Reachable s) :
    getranluxseq (getlcgstate s) = s :=
  roundtrip_reachable s h

theorem claim_C2_witness :
    Reachable (swbSteps 24 (init 1)) ∧
      getranluxseq (getlcgstate (swbSteps 24 (init 1))) = swbSteps 24 (init 1) :=
  ⟨⟨init 1, 24, by decide, by decide, by decide, rfl⟩,
   claim_C2 _ ⟨init 1, 24, by decide, by decide, by decide, rfl⟩⟩

/-- A concrete 4-lane engine used to exhibit the SIMD export order: lane 1
has 2^16 in state word 0, all other lanes and words are zero. -/
def exSimd : SimdEngine :=
  ⟨4,
   fun l => ⟨(List.range 24).map (fun k => if l = 1 ∧ k = 0 then 2 ^ 16 else 0), 0⟩,
   1, 0⟩

/-- A concrete 8-lane engine with the analogous contents. -/
def exSimd8 : SimdEngine :=
  ⟨8,
   fun l => ⟨(List.range 24).map (fun k => if l = 1 ∧ k = 0 then 2 ^ 16 else 0), 0⟩,
   1, 0⟩

/-- Claim C3 counterexample: the SSE word export does not emit the lanes in
lane-major order with the scalar interleaving applied to each lane alone;
on a concrete engine the emitted words differ from that reading. -/
theorem claim_C3_counterexample :
    (sseExportOp exSimd).2 ≠ laneMajorExport (sseExportOp exSimd).1 := by
  decide

/-- Claim C3 as amended: the SIMD word export walks the lane-interleaved
flattened state array in groups of four consecutive 32-bit elements, packing
each group into three output words with the scalar 8/16/24-bit shift
pattern.  Because lanes are interleaved within each state position, the
export is state-word-major: for the 4-wide engine each output triple packs
the four lanes of one state position, and for the 8-wide engine each state
position yields two triples, lanes 0-3 and lanes 4-7; output words combine
values of different lanes. -/
theorem claim_C3_amended (e4 e8 : SimdEngine) (h4 : e4.width = 4)
    (h8 : e8.width = 8) :
    (sseExportOp e4).2
        = wordMajor4 (fun l => nextstate e4.p (e4.lanes l)) 24 ∧
      (avxExportOp e8).2
        = wordMajor8 (fun l => nextstate e8.p (e8.lanes l)) 24 := by
  constructor
  · exact sse_export_wordMajor (simdNextstate e4) h4 24
  · exact avx_export_wordMajor (simdNextstate e8) h8 24

theorem claim_C3_amended_witness :
    exSimd.width = 4 ∧ exSimd8.width = 8 ∧
      ((sseExportOp exSimd).2
          = wordMajor4 (fun l => nextstate exSimd.p (exSimd.lanes l)) 24 ∧
        (avxExportOp exSimd8).2
          = wordMajor8 (fun l => nextstate exSimd8.p (exSimd8.lanes l)) 24) :=
  ⟨rfl, rfl, claim_C3_amended exSimd exSimd8 rfl rfl⟩

/-- Claim C4: the scalar 32-bit export produces exactly 18 words from the
24-lane batch via the 8/16/24-bit boundary shifts; each pair of output words
x(3t), x(3t+1) packs the three consecutive lanes 4t, 4t+1 (fully) and the
high 16 bits of lane 4t+2, and word x(3t+2) packs the remaining 8 bits of
lane 4t+2 together with lane 4t+3. -/
theorem claim_C4 (l : List ℕ) (hd : ∀ v ∈ l, v < bb) (hlen : l.length = 24) :
    (uint32Export l).length = 18 ∧
      ∀ t, t < 6 →
        (uint32Export l).getD (3 * t) 0 * 2 ^ 32
            + (uint32Export l).getD (3 * t + 1) 0
          = l.getD (4 * t) 0 * 2 ^ 40 + l.getD (4 * t + 1) 0 * 2 ^ 16
            + l.getD (4 * t + 2) 0 / 2 ^ 8 ∧
        (uint32Export l).getD (3 * t + 2) 0
          = l.getD (4 * t + 2) 0 % 2 ^ 8 * 2 ^ 24 + l.getD (4 * t + 3) 0 := by
  have hj : ∀ j, l.getD j 0 < bb := by
    intro j
    rcases Nat.lt_or_ge j l.length with hjl | hjl
    · rw [List.getD_eq_getElem l 0 hjl]
      exact hd _ (List.getElem_mem hjl)
    · rw [List.getD_eq_default l 0 hjl]
      exact bb_pos
  have hexp : uint32Export l
      = packTriple (l.getD 0 0) (l.getD 1 0) (l.getD 2 0) (l.getD 3 0)
        ++ packTriple (l.getD 4 0) (l.getD 5 0) (l.getD 6 0) (l.getD 7 0)
        ++ packTriple (l.getD 8 0) (l.getD 9 0) (l.getD 10 0) (l.getD 11 0)
        ++ packTriple (l.getD 12 0) (l.getD 13 0) (l.getD 14 0) (l.getD 15 0)
        ++ packTriple (l.getD 16 0) (l.getD 17 0) (l.getD 18 0) (l.getD 19 0)
        ++ packTriple (l.getD 20 0) (l.getD 21 0) (l.getD 22 0) (l.getD 23 0) := by
    show exportLoop (fun j => l.getD j 0) 6 = _
    norm_num [exportLoop, List.append_assoc]
  rw [hexp,
    packTriple_eq _ _ _ _ (hj 0) (hj 1) (hj 2) (hj 3),
    packTriple_eq _ _ _ _ (hj 4) (hj 5) (hj 6) (hj 7),
    packTriple_eq _ _ _ _ (hj 8) (hj 9) (hj 10) (hj 11),
    packTriple_eq _ _ _ _ (hj 12) (hj 13) (hj 14) (hj 15),
    packTriple_eq _ _ _ _ (hj 16) (hj 17) (hj 18) (hj 19),
    packTriple_eq _ _ _ _ (hj 20) (hj 21) (hj 22) (hj 23)]
  refine ⟨by simp, ?_⟩
  intro t ht
  interval_cases t <;>
    refine ⟨?_, ?_⟩ <;>
    norm_num [List.cons_append, List.nil_append, List.getD_cons_zero,
      List.getD_cons_succ] <;>
    omega

theorem claim_C4_witness :
    (∀ v ∈ (List.range 24 : List ℕ), v < bb) ∧
      (List.range 24 : List ℕ).length = 24 ∧
      ((uint32Export (List.range 24)).length = 18 ∧
        ∀ t, t < 6 →
          (uint32Export (List.range 24)).getD (3 * t) 0 * 2 ^ 32
              + (uint32Export (List.range 24)).getD (3 * t + 1) 0
            = (List.range 24).getD (4 * t) 0 * 2 ^ 40
              + (List.range 24).getD (4 * t + 1) 0 * 2 ^ 16
              + (List.range 24).getD (4 * t + 2) 0 / 2 ^ 8 ∧
          (uint32Export (List.range 24)).getD (3 * t + 2) 0
            = (List.range 24).getD (4 * t + 2) 0 % 2 ^ 8 * 2 ^ 24
              + (List.range 24).getD (4 * t + 3) 0) :=
  ⟨by decide, by decide, claim_C4 (List.range 24) (by decide) (by decide)⟩

/-- Claim C5: every lane of every reachable engine state lies below 2^24:
the invariant holds after seeding and is preserved by every sub-step (hence
by every advance), and consequently every value delivered by the draw
operator of the scalar engine and of the SIMD engines lies in the interval
from 0 inclusive to 1 exclusive (the float scaling by 2^-24 is exact, so the
delivered float equals the modelled rational). -/
theorem claim_C5 :
    (∀ seed, wfS (init seed)) ∧
      (∀ s, wfS s → wfS (swbStep s)) ∧
      (∀ e : ScalarEngine, wfS e.st →
        0 ≤ (scalarDraw e).1 ∧ (scalarDraw e).1 < 1 ∧
          wfS (scalarDraw e).2.st) ∧
      (∀ e : SimdEngine, (∀ l, wfS (e.lanes l)) →
        0 ≤ (simdDraw e).1 ∧ (simdDraw e).1 < 1 ∧
          ∀ l, wfS ((simdDraw e).2.lanes l)) := by
  refine ⟨wfS_init, wfS_step, ?_, ?_⟩
  · intro e he
    unfold scalarDraw
    split
    · have hw : wfS (nextstate e.p e.st) := wfS_steps _ _ he
      have hb := qval_bounds _ (getD_lt_bb _ hw 0)
      exact ⟨hb.1, hb.2, hw⟩
    · have hb := qval_bounds _ (getD_lt_bb _ he e.pos)
      exact ⟨hb.1, hb.2, he⟩
  · intro e he
    have hw : ∀ l, wfS ((simdNextstate e).lanes l) :=
      fun l => wfS_steps _ _ (he l)
    unfold simdDraw
    split
    · have hb := qval_bounds (simdMem (simdNextstate e) 0)
        (by unfold simdMem; exact getD_lt_bb _ (hw _) _)
      exact ⟨hb.1, hb.2, hw⟩
    · have hb := qval_bounds (simdMem e e.pos)
        (by unfold simdMem; exact getD_lt_bb _ (he _) _)
      exact ⟨hb.1, hb.2, he⟩

theorem claim_C5_witness :
    wfS (mkScalar 1 17).st ∧
      (0 ≤ (scalarDraw (mkScalar 1 17)).1 ∧
        (scalarDraw (mkScalar 1 17)).1 < 1 ∧
        wfS (scalarDraw (mkScalar 1 17)).2.st) :=
  ⟨by decide, claim_C5.2.2.1 (mkScalar 1 17) (by decide)⟩

/-- Claim C6: capturing the legacy 25-word vector with `rluxut` and at once
restoring it with `rluxin` leaves the engine state identical, so for every n
the following n draws are unchanged; equally, restoring a captured vector
later reproduces exactly the draws that followed the capture. -/
theorem claim_C6 (j : JamesState) (h : wfJ j) :
    rluxin (rluxut j) = j ∧
      ∀ n, jamesDraws n (rluxin (rluxut j)) = jamesDraws n j := by
  have hid := rluxin_rluxut j h
  exact ⟨hid, fun n => by rw [hid]⟩

theorem claim_C6_witness :
    wfJ ⟨init 1, 3, 199⟩ ∧
      rluxin (rluxut ⟨init 1, 3, 199⟩) = ⟨init 1, 3, 199⟩ ∧
      jamesDraws 5 (rluxin (rluxut ⟨init 1, 3, 199⟩))
        = jamesDraws 5 ⟨init 1, 3, 199⟩ :=
  ⟨by decide, (claim_C6 _ (by decide)).1, (claim_C6 _ (by decide)).2 5⟩

/-- Claim C7 counterexample: the luxury argument 75 lies outside the defined
table levels 0..4; the legacy contract takes it directly as the skip
distance p = 75, which is not any defined level skip distance, while the
nearest defined level would give p = 389 (and the nearest table distance
would be 97) — so the engine does not map undefined values to the nearest
defined luxury level. -/
theorem claim_C7_counterexample :
    setlux 75 = 75 ∧ setlux 75 ∉ luxTable ∧ nearestLevelP 75 = 389 ∧
      setlux 75 ≠ nearestLevelP 75 := by
  decide

/-- Claim C7 as amended: `rluxgo` never fails on an out-of-table luxury
argument, but the documented legacy fallback is not nearest-level: a
negative argument selects the default level 3 (p = 223), arguments 0..4
select the table entry, arguments from 24 to 2000 are taken directly as the
skip distance p, and the remaining arguments (5..23 and above 2000) select
the highest level 4 (p = 389). -/
theorem claim_C7_amended (lux : ℤ) :
    (lux < 0 → setlux lux = 223) ∧
      (0 ≤ lux → lux ≤ 4 → setlux lux = luxTable.getD lux.toNat 0) ∧
      (24 ≤ lux → lux ≤ 2000 → setlux lux = lux.toNat) ∧
      ((5 ≤ lux ∧ lux ≤ 23) ∨ 2000 < lux → setlux lux = 389) := by
  unfold setlux
  refine ⟨?_, ?_, ?_, ?_⟩
  · intro h1
    split_ifs <;> first | rfl | omega
  · intro h1 h2
    split_ifs <;> first | rfl | omega
  · intro h1 h2
    split_ifs <;> first | rfl | omega
  · intro h1
    split_ifs <;> first | rfl | omega

theorem claim_C7_amended_witness :
    ((24 : ℤ) ≤ 75 ∧ (75 : ℤ) ≤ 2000) ∧ setlux 75 = Int.toNat 75 :=
  ⟨by decide, (claim_C7_amended 75).2.2.1 (by decide) (by decide)⟩

/-- Claim C8: construction plus drawing is deterministic: two engines
constructed from the same seed and luxury argument deliver identical draw
sequences of every length (the model has no hidden input). -/
theorem claim_C8 (seed lux n : ℕ) (e1 e2 : ScalarEngine)
    (h1 : e1 = mkScalar seed lux) (h2 : e2 = mkScalar seed lux) :
    scalarDraws n e1 = scalarDraws n e2 := by
  rw [h1, h2]

theorem claim_C8_witness :
    mkScalar 1 17 = mkScalar 1 17 ∧
      scalarDraws 3 (mkScalar 1 17) = scalarDraws 3 (mkScalar 1 17) :=
  ⟨rfl, claim_C8 1 17 3 (mkScalar 1 17) (mkScalar 1 17) rfl rfl⟩

/-- Claim C9: the word-export operation first advances the engine state by
the configured skip distance `_p` and exports from the newly advanced state,
leaving the cursor `_pos` and the skip distance `_p` unchanged, for the
scalar and the SIMD engines. -/
theorem claim_C9 (e : ScalarEngine) (es : SimdEngine) :
    ((scalarExportOp e).1.pos = e.pos ∧ (scalarExportOp e).1.p = e.p ∧
      (scalarExportOp e).1.st = nextstate e.p e.st ∧
      (scalarExportOp e).2 = uint32Export (nextstate e.p e.st).digits) ∧
    ((sseExportOp es).1.pos = es.pos ∧ (sseExportOp es).1.p = es.p ∧
      (sseExportOp es).1.width = es.width ∧
      (∀ l, (sseExportOp es).1.lanes l = nextstate es.p (es.lanes l)) ∧
      (sseExportOp es).2 = exportLoop (simdMem (simdNextstate es)) 24) :=
  ⟨⟨rfl, rfl, rfl, rfl⟩, ⟨rfl, rfl, rfl, fun _ => rfl, rfl⟩⟩

/-- Claim C10: within one batch of width times 24 precomputed values, the
i-th draw since the last refill returns state word i / width of vector lane
i mod width: successive draws cycle through the lanes instead of exhausting
one lane first. -/
theorem claim_C10 (e : SimdEngine) (i : ℕ) (h0 : e.pos = 0)
    (hi : i < e.width * 24) :
    (simdDraw (simdAfter i e)).1
      = ((e.lanes (i % e.width)).digits.getD (i / e.width) 0 : ℚ) / 2 ^ 24 := by
  rw [simdAfter_spec e h0 i (le_of_lt hi)]
  unfold simdDraw
  rw [if_neg (by simp only []; omega)]
  rfl

theorem claim_C10_witness :
    exSimd.pos = 0 ∧ 5 < exSimd.width * 24 ∧
      (simdDraw (simdAfter 5 exSimd)).1
        = ((exSimd.lanes (5 % exSimd.width)).digits.getD (5 / exSimd.width) 0 : ℚ)
            / 2 ^ 24 :=
  ⟨rfl, by decide, claim_C10 exSimd 5 rfl (by decide)⟩

end RanluxVerify
